import Mathlib

/-!
Verification of the SunHarvest Connect quality-grading pipeline.

The Python sources under ml/ are shallowly embedded below:
* ml/server.py                                — Flask inference server
* ml/training/quality_grading/prepare_data.py — data split bookkeeping
* ml/training/quality_grading/train.py        — class-weight computation
* ml/training/quality_grading/bias_test.py    — bias-flag thresholds
* ml/training/quality_grading/evaluate.py     — confusion-matrix tabulation

Machine floats (the split ratios 0.7 and 0.85 of prepare_data.py) are
embedded exactly, as dyadic rationals over ℕ with IEEE-754 round-to-nearest-
even at 53 significant bits; probability vectors are embedded over ℚ.
-/

namespace SunHarvest

namespace Server

/-- Embedding of CLASS_NAMES from ml/server.py (alphabetical directory order). -/
def CLASS_NAMES : List String := ["grade_a", "grade_b", "premium", "reject"]

/-- Embedding of the GRADE_LABELS dict from ml/server.py. -/
def GRADE_LABELS : List (String × String) :=
  [("premium", "Premium"), ("grade_a", "Grade A"),
   ("grade_b", "Grade B"), ("reject", "Reject")]

/-- Dictionary lookup GRADE_LABELS[name]; a missing key (Python KeyError)
is embedded as the empty string, which never arises for the four class names. -/
def gradeLabel (name : String) : String := (GRADE_LABELS.lookup name).getD ""

/-- Embedding of the CROP_DEFECTS dict from ml/server.py. -/
def CROP_DEFECTS : List (String × List String) :=
  [("tomato", ["cracking", "sunscald", "blossom end rot", "catfacing"]),
   ("tomatoes", ["cracking", "sunscald", "blossom end rot", "catfacing"]),
   ("mango", ["anthracnose", "latex burn", "stem-end rot", "lenticel spotting"]),
   ("mangoes", ["anthracnose", "latex burn", "stem-end rot", "lenticel spotting"]),
   ("potato", ["greening", "scab", "growth cracks", "hollow heart"]),
   ("potatoes", ["greening", "scab", "growth cracks", "hollow heart"]),
   ("onion", ["neck rot", "black mold", "splitting", "sunburn"]),
   ("onions", ["neck rot", "black mold", "splitting", "sunburn"]),
   ("cabbage", ["black rot", "tip burn", "insect damage", "splitting"]),
   ("kale", ["aphid damage", "leaf spot", "yellowing", "wilting"]),
   ("spinach", ["leaf miner trails", "downy mildew", "yellowing", "bolting damage"]),
   ("avocado", ["anthracnose", "stem-end rot", "lenticel damage", "chilling injury"]),
   ("banana", ["crown rot", "finger drop", "bruising", "cigar-end rot"]),
   ("bananas", ["crown rot", "finger drop", "bruising", "cigar-end rot"]),
   ("orange", ["citrus canker", "wind scarring", "oil spotting", "stem-end rot"]),
   ("oranges", ["citrus canker", "wind scarring", "oil spotting", "stem-end rot"]),
   ("pepper", ["blossom end rot", "sunscald", "cracking", "anthracnose"]),
   ("peppers", ["blossom end rot", "sunscald", "cracking", "anthracnose"]),
   ("carrot", ["forking", "cracking", "green shoulder", "cavity spot"]),
   ("carrots", ["forking", "cracking", "green shoulder", "cavity spot"]),
   ("maize", ["ear rot", "kernel damage", "insect boring", "husk discoloration"])]

/-- Embedding of DEFAULT_DEFECTS from ml/server.py. -/
def DEFAULT_DEFECTS : List String :=
  ["minor surface blemishes", "slight discoloration", "small bruise", "cosmetic imperfection"]

/-- Embedding of numpy argsort (ascending indices by value); server.py computes
it inside infer_defects and never uses the result. -/
def argsort (l : List ℚ) : List ℕ :=
  List.insertionSort (fun i j => l.getD i 0 ≤ l.getD j 0) (List.range l.length)

/-- Embedding of infer_defects from ml/server.py, lines 97-116.  The Python
loop appends pool[i % len(pool)] for i in range(min(count, len(pool))). -/
def infer_defects (crop_type grade_name : String) (probabilities : List ℚ) : List String :=
  if grade_name = "Premium" then []
  else
    let pool := (CROP_DEFECTS.lookup crop_type.toLower).getD DEFAULT_DEFECTS
    let count := if grade_name = "Grade A" then 1
                 else if grade_name = "Grade B" then 2
                 else 3
    let _indices := argsort probabilities
    (List.range (min count pool.length)).map (fun i => pool.getD (i % pool.length) "")

/-- Embedding of numpy argmax on a vector: index of the first maximal entry
(0 on the empty vector, where numpy would raise). -/
def argmaxAux : List ℚ → ℕ → ℕ → ℚ → ℕ
  | [], _, best, _ => best
  | x :: xs, i, best, bestVal =>
      if bestVal < x then argmaxAux xs (i + 1) i x
      else argmaxAux xs (i + 1) best bestVal

/-- Index of the first maximal entry of a probability vector (numpy argmax). -/
def argmax : List ℚ → ℕ
  | [] => 0
  | x :: xs => argmaxAux xs 1 0 x

/-- Embedding of Python round(p, 4) over ℚ.  Python rounds ties to even at the
float level; on the rationals appearing here we round half away from zero,
which is irrelevant to the claims (they never inspect rounded digits). -/
def round4 (q : ℚ) : ℚ := round (q * 10000) / 10000

/-- The JSON body returned by a successful /predict call (server.py 154-170). -/
structure PredictResponse where
  grade : String
  confidence : ℚ
  defects : List String
  probabilities : List (String × ℚ)
  modelVersion : String
  deriving Repr, DecidableEq

/-- Embedding of the success branch of predict (server.py lines 154-170):
argmax over the probability vector selects the class name; the response is
keyed by GRADE_LABELS over zip(CLASS_NAMES, probabilities). -/
def successResponse (cropType modelVersion : String) (probabilities : List ℚ) :
    PredictResponse :=
  let top_idx := argmax probabilities
  let confidence := probabilities.getD top_idx 0
  let class_name := CLASS_NAMES.getD top_idx ""
  let grade_label := gradeLabel class_name
  { grade := grade_label
    confidence := round4 confidence
    defects := infer_defects cropType grade_label probabilities
    probabilities :=
      (CLASS_NAMES.zip probabilities).map (fun cp => (gradeLabel cp.1, round4 cp.2))
    modelVersion := modelVersion }

/-- An HTTP request to /predict.  Multipart and JSON payloads are embedded by
their byte content: filesImage is the multipart image file when present
(possibly empty), jsonImage is the base64-decoded image field of a JSON body
when present (base64.b64decode of a non-empty well-formed field is non-empty). -/
structure PredictRequest where
  filesImage : Option (List ℕ)
  formCropType : Option String
  isJson : Bool
  jsonImage : Option (List ℕ)
  jsonCropType : Option String
  deriving Repr, DecidableEq

/-- Result of a /predict call: an HTTP error status with message, or a body. -/
inductive PredictResult where
  | error (status : ℕ) (message : String)
  | ok (resp : PredictResponse)
  deriving Repr, DecidableEq

/-- The image_bytes value computed by predict (server.py lines 133-144):
the multipart file when present, else the decoded JSON image field of a JSON
request, else None. -/
def effectiveImageBytes (req : PredictRequest) : Option (List ℕ) :=
  if req.filesImage.isSome then req.filesImage
  else if req.isJson then req.jsonImage
  else none

/-- The cropType value computed by predict (server.py lines 134-144). -/
def effectiveCropType (req : PredictRequest) : String :=
  if req.filesImage.isSome then req.formCropType.getD "tomato"
  else if req.isJson then req.jsonCropType.getD "tomato"
  else "tomato"

/-- Embedding of the /predict route handler (server.py lines 127-173).  The
loaded model, with its preprocessing, is a function from image bytes to the
probability vector; Python truthiness makes empty bytes fall into the
No-image branch.  The except-branch (HTTP 500) is unreachable for the total
functions of this embedding. -/
def predict (model : Option (List ℕ → List ℚ)) (modelVersion : String)
    (req : PredictRequest) : PredictResult :=
  match model with
  | none => .error 503 "No model loaded"
  | some f =>
      match effectiveImageBytes req with
      | none => .error 400 "No image provided"
      | some bs =>
          if bs = [] then .error 400 "No image provided"
          else .ok (successResponse (effectiveCropType req) modelVersion (f bs))

/-- The routes registered on the Flask app in ml/server.py: the decorators at
lines 119 (GET /health) and 127 (POST /predict). -/
def app_routes : List (String × List String) :=
  [("/health", ["GET"]), ("/predict", ["POST"])]

end Server

namespace PrepareData

/-- Fuel-driven binary logarithm, structurally recursive so that the kernel
can evaluate it: for 1 ≤ n ≤ fuel it computes the floor of log2 n. -/
def ilog2fuel : ℕ → ℕ → ℕ
  | 0, _ => 0
  | fuel + 1, n => if 2 ≤ n then ilog2fuel fuel (n / 2) + 1 else 0

/-- Floor of the binary logarithm (0 at 0). -/
def ilog2 (n : ℕ) : ℕ := ilog2fuel n n

/-- Round-to-nearest, ties-to-even, of the dyadic rational P / 2^E. -/
def rneNat (P E : ℕ) : ℕ :=
  let q := P / 2 ^ E
  let r := P % 2 ^ E
  let half := 2 ^ (E - 1)
  if r < half then q
  else if half < r then q + 1
  else if q % 2 = 0 then q else q + 1

/-- Python int(n * d) where d is the positive double m / 2^s with s ≥ 52: the
exact product n·m / 2^s is rounded to the nearest double (53 significant
bits, ties to even) and truncated toward zero.  The products arising here
with value below 1 are 0, 0.7 and 0.85, all truncating to 0. -/
def floatMulFloor (n m s : ℕ) : ℕ :=
  let P := n * m
  if P < 2 ^ s then 0
  else
    let e := ilog2 (P / 2 ^ s)
    let k := rneNat P (s - 52 + e)
    if 52 ≤ e then k * 2 ^ (e - 52) else k / 2 ^ (52 - e)

/-- Embedding of train_end = int(n * train_ratio) from copy_images_with_split
(prepare_data.py line 126) at the default train_ratio = 0.7, whose IEEE-754
double value is exactly 3152519739159347 / 2^52. -/
def train_end (n : ℕ) : ℕ := floatMulFloor n 3152519739159347 52

/-- Embedding of val_end = int(n * (train_ratio + val_ratio)) from
copy_images_with_split (prepare_data.py line 127) at the defaults 0.7 and
0.15: the double sum 0.7 + 0.15 is exactly the double nearest 0.85, namely
7656119366529843 / 2^53. -/
def val_end (n : ℕ) : ℕ := floatMulFloor n 7656119366529843 53

/-- Embedding of the splits dict of copy_images_with_split (prepare_data.py
lines 129-133): the Python slices src[:train_end], src[train_end:val_end]
and src[val_end:] of the shuffled file list. -/
def split_files (src : List String) : List String × List String × List String :=
  let n := src.length
  let a := train_end n
  let b := val_end n
  (src.take a, (src.drop a).take (b - a), src.drop b)

end PrepareData

namespace Train

/-- Dictionary lookup class_counts[name] (0 for a missing key, which does not
arise for the names iterated by compute_class_weights). -/
def countOf (class_counts : List (String × ℕ)) (name : String) : ℕ :=
  (class_counts.lookup name).getD 0

/-- Python sorted(class_counts.keys()): the alphabetical order in which
compute_class_weights indexes the classes (train.py line 139). -/
def sortedNames (class_counts : List (String × ℕ)) : List String :=
  List.insertionSort (· ≤ ·) (class_counts.map Prod.fst)

/-- Round-to-nearest, ties-to-even, of the rational a / b, for positive b. -/
def rneDiv (a b : ℕ) : ℕ :=
  let q := a / b
  let r := a % b
  if 2 * r < b then q
  else if b < 2 * r then q + 1
  else if q % 2 = 0 then q else q + 1

/-- The IEEE-754 double nearest to the quotient a / b of two Python ints
(train.py line 143 divides two ints into a correctly rounded double), for
the positive quotients arising here, which lie in [2^-64, 2^53): the
quotient's binade exponent is ilog2(a·2^64 / b) - 64 and the mantissa is
a / b rounded onto the grid of spacing 2^(exponent - 52), ties to even. -/
def floatDivQ (a b : ℕ) : ℚ :=
  if a = 0 then 0
  else
    let e64 := PrepareData.ilog2 (a * 2 ^ 64 / b)
    let k := rneDiv (a * 2 ^ (116 - e64)) b
    (k : ℚ) / 2 ^ (116 - e64)

/-- Embedding of compute_class_weights from train.py lines 128-147.  The
input is the class_counts dict as a list of (directory name, image count)
pairs with distinct names; the result lists the weight of the class at each
alphabetical index: the double total / (num_classes * count), Python's
float division of the two ints. -/
def compute_class_weights (class_counts : List (String × ℕ)) : List ℚ :=
  let total := (class_counts.map Prod.snd).sum
  let num_classes := class_counts.length
  (sortedNames class_counts).map (fun name =>
    floatDivQ total (num_classes * countOf class_counts name))

end Train

namespace BiasTest

/-- Embedding of DISPARATE_IMPACT_THRESHOLD = 0.8 (bias_test.py line 43). -/
def DISPARATE_IMPACT_THRESHOLD : ℚ := 4 / 5

/-- Embedding of FPR_GAP_THRESHOLD = 0.10 (bias_test.py line 45). -/
def FPR_GAP_THRESHOLD : ℚ := 1 / 10

/-- Python max over a list of rationals; the scripts apply it only to
non-empty dict value lists, so the default headD 0 is never the result. -/
def pymax (l : List ℚ) : ℚ := l.foldl (fun a b => if a < b then b else a) (l.headD 0)

/-- Python min over a list of rationals (same non-emptiness remark). -/
def pymin (l : List ℚ) : ℚ := l.foldl (fun a b => if b < a then b else a) (l.headD 0)

/-- Acceptance rates 1 - reject rate per crop (bias_test.py line 210). -/
def acceptance_rates (crop_reject_rate : List (String × ℚ)) : List (String × ℚ) :=
  crop_reject_rate.map (fun cr => (cr.1, 1 - cr.2))

/-- Maximum acceptance rate over all crops (bias_test.py line 211). -/
def max_acceptance (crop_reject_rate : List (String × ℚ)) : ℚ :=
  pymax ((acceptance_rates crop_reject_rate).map Prod.snd)

/-- Embedding of the 4/5ths-rule check of test_reject_rate_parity
(bias_test.py lines 209-221): the list of crops appended to di_violations.
The guard at line 209 requires the maximum reject rate to be positive and the
minimum non-negative; a crop is appended when max_acceptance > 0 and its
acceptance ratio is strictly below DISPARATE_IMPACT_THRESHOLD. -/
def di_violations (crop_reject_rate : List (String × ℚ)) : List String :=
  let vals := crop_reject_rate.map Prod.snd
  if 0 < pymax vals ∧ 0 ≤ pymin vals then
    ((acceptance_rates crop_reject_rate).filter (fun ca =>
        decide (0 < max_acceptance crop_reject_rate ∧
          ca.2 / max_acceptance crop_reject_rate < DISPARATE_IMPACT_THRESHOLD))).map
      Prod.fst
  else []

/-- Embedding of the fp count of test_false_positive_rate_parity (bias_test.py
lines 239-240): the generator sum over the sample indices i with
pred_classes[i] equal to the grade index and true_classes[i] different. -/
def fp_count (true_classes pred_classes : List ℕ) (grade_idx : ℕ) : ℕ :=
  ((List.range true_classes.length).map (fun i =>
      if pred_classes.getD i 0 = grade_idx ∧ true_classes.getD i 0 ≠ grade_idx
      then 1 else 0)).sum

/-- Embedding of the tn count (bias_test.py lines 241-242): indices whose
prediction and true class both differ from the grade index. -/
def tn_count (true_classes pred_classes : List ℕ) (grade_idx : ℕ) : ℕ :=
  ((List.range true_classes.length).map (fun i =>
      if pred_classes.getD i 0 ≠ grade_idx ∧ true_classes.getD i 0 ≠ grade_idx
      then 1 else 0)).sum

/-- Embedding of the per-grade FPR (bias_test.py line 243):
fp / (fp + tn) when fp + tn > 0, else 0. -/
def fpr (true_classes pred_classes : List ℕ) (grade_idx : ℕ) : ℚ :=
  let fp := fp_count true_classes pred_classes grade_idx
  let tn := tn_count true_classes pred_classes grade_idx
  if 0 < fp + tn then (fp : ℚ) / ((fp : ℚ) + (tn : ℚ)) else 0

/-- Embedding of the grade_fpr dict (bias_test.py lines 237-244) as the list
of (grade name, FPR) pairs in enumeration order of class_names. -/
def grade_fpr (true_classes pred_classes : List ℕ) (class_names : List String) :
    List (String × ℚ) :=
  class_names.enum.map (fun gi => (gi.2, fpr true_classes pred_classes gi.1))

/-- Embedding of the FPR gap max - min (bias_test.py lines 251-253). -/
def fpr_gap (true_classes pred_classes : List ℕ) (class_names : List String) : ℚ :=
  pymax ((grade_fpr true_classes pred_classes class_names).map Prod.snd) -
    pymin ((grade_fpr true_classes pred_classes class_names).map Prod.snd)

/-- The bias-concern flags appended at bias_test.py lines 258-260: one flag
exactly when the gap strictly exceeds FPR_GAP_THRESHOLD. -/
def fpr_flags (true_classes pred_classes : List ℕ) (class_names : List String) :
    List String :=
  if FPR_GAP_THRESHOLD < fpr_gap true_classes pred_classes class_names then
    ["FPR gap exceeds threshold"]
  else []

end BiasTest

namespace Evaluate

/-- One step of the fallback tabulation loop of compute_confusion_matrix
(evaluate.py line 136): cm[t, p] += 1. -/
def cmStep (cm : ℕ → ℕ → ℕ) (t p : ℕ) : ℕ → ℕ → ℕ :=
  fun i j => if i = t ∧ j = p then cm i j + 1 else cm i j

/-- Embedding of the fallback confusion matrix of compute_confusion_matrix
(evaluate.py lines 132-136), the branch used when sklearn is absent: a zero
matrix (represented by its entry function) incremented at (t, p) for every
sample, where samples zips true and predicted classes. -/
def compute_confusion_matrix (samples : List (ℕ × ℕ)) : ℕ → ℕ → ℕ :=
  samples.foldl (fun cm s => cmStep cm s.1 s.2) (fun _ _ => 0)

end Evaluate

end SunHarvest

namespace SunHarvest

lemma map_range_getD_eq_take {α : Type} (pool : List α) (d : α) :
    ∀ n, n ≤ pool.length →
      (List.range n).map (fun i => pool.getD (i % pool.length) d) = pool.take n := by
  intro n hn
  induction n with
  | zero => simp
  | succ m ih =>
      rw [List.range_succ, List.map_append, ih (Nat.le_of_succ_le hn)]
      have hm : m < pool.length := hn
      rw [List.take_succ]
      simp [Nat.mod_eq_of_lt hm, List.getD, List.getElem?_eq_getElem hm]

lemma take_eq_take_min {α : Type} (pool : List α) (n : ℕ) :
    pool.take n = pool.take (min n pool.length) := by
  rw [← List.take_take, List.take_length]

/-- C8: for every crop_type and probability vector, infer_defects returns []
for the grade Premium, and otherwise exactly min(count, len(pool)) defects
taken in order from the front of the crop's pool (the default pool for an
unknown crop), where count is 1 for Grade A, 2 for Grade B and 3 otherwise. -/
theorem C8_infer_defects_front_of_pool (crop grade : String) (probs : List ℚ) :
    Server.infer_defects crop grade probs =
      (if grade = "Premium" then []
       else ((Server.CROP_DEFECTS.lookup crop.toLower).getD Server.DEFAULT_DEFECTS).take
          (if grade = "Grade A" then 1 else if grade = "Grade B" then 2 else 3)) ∧
    (Server.infer_defects crop grade probs).length =
      (if grade = "Premium" then 0
       else min (if grade = "Grade A" then 1 else if grade = "Grade B" then 2 else 3)
          ((Server.CROP_DEFECTS.lookup crop.toLower).getD Server.DEFAULT_DEFECTS).length) := by
  have key : Server.infer_defects crop grade probs =
      (if grade = "Premium" then []
       else ((Server.CROP_DEFECTS.lookup crop.toLower).getD Server.DEFAULT_DEFECTS).take
          (if grade = "Grade A" then 1 else if grade = "Grade B" then 2 else 3)) := by
    by_cases hp : grade = "Premium"
    · simp [Server.infer_defects, hp]
    · simp only [Server.infer_defects, hp, if_false]
      rw [map_range_getD_eq_take _ _ _ (min_le_right _ _)]
      exact (take_eq_take_min _ _).symm
  refine ⟨key, ?_⟩
  rw [key]
  by_cases hp : grade = "Premium"
  · simp [hp]
  · simp [hp, List.length_take]

/-- C9: infer_defects is independent of its probabilities argument: two calls
with the same crop_type and grade_name but different probability vectors
return the same defect list (the argsort is computed but never used). -/
theorem C9_infer_defects_probability_independent (crop grade : String)
    (p q : List ℚ) :
    Server.infer_defects crop grade p = Server.infer_defects crop grade q := rfl

lemma argmaxAux_lt_bound (xs : List ℚ) :
    ∀ (i best : ℕ) (bv : ℚ), best < i → Server.argmaxAux xs i best bv < i + xs.length := by
  induction xs with
  | nil => intro i best bv h; simpa [Server.argmaxAux] using h
  | cons x xs ih =>
      intro i best bv h
      simp only [Server.argmaxAux]
      have hlen : (i + 1) + xs.length = i + (x :: xs).length := by
        simp [List.length_cons]; omega
      split
      · exact hlen ▸ ih (i + 1) i x (Nat.lt_succ_self i)
      · exact hlen ▸ ih (i + 1) best bv (Nat.lt_succ_of_lt h)

lemma argmax_lt_length (l : List ℚ) (h : l ≠ []) : Server.argmax l < l.length := by
  match l with
  | x :: xs =>
      have := argmaxAux_lt_bound xs 1 0 x Nat.one_pos
      simpa [Server.argmax, List.length_cons, Nat.add_comm] using this

/-- C1: every successful /predict response carries a grade drawn from the four
labels Premium, Grade A, Grade B, Reject — namely GRADE_LABELS applied to the
class name at the argmax of the probability vector — and its probabilities
object is keyed by exactly those four labels. -/
theorem C1_predict_grade_and_probability_keys (crop mv : String) (probs : List ℚ)
    (h : probs.length = 4) :
    (Server.successResponse crop mv probs).grade =
      Server.gradeLabel (Server.CLASS_NAMES.getD (Server.argmax probs) "") ∧
    (Server.successResponse crop mv probs).grade ∈
      ["Premium", "Grade A", "Grade B", "Reject"] ∧
    (Server.successResponse crop mv probs).probabilities.map Prod.fst =
      ["Grade A", "Grade B", "Premium", "Reject"] := by
  have hne : probs ≠ [] := by
    intro hnil; rw [hnil] at h; simp at h
  have hlt : Server.argmax probs < 4 := by
    have := argmax_lt_length probs hne
    rw [h] at this
    exact this
  refine ⟨rfl, ?_, ?_⟩
  · have hcases : Server.argmax probs = 0 ∨ Server.argmax probs = 1 ∨
        Server.argmax probs = 2 ∨ Server.argmax probs = 3 := by omega
    show Server.gradeLabel (Server.CLASS_NAMES.getD (Server.argmax probs) "") ∈ _
    rcases hcases with h0 | h0 | h0 | h0 <;> rw [h0] <;> decide
  · rcases probs with _ | ⟨a, _ | ⟨b, _ | ⟨c, _ | ⟨d, rest⟩⟩⟩⟩ <;>
      simp only [List.length_cons, List.length_nil] at h <;> try omega
    have hrest : rest = [] := by
      have : rest.length = 0 := by omega
      exact List.length_eq_zero.mp this
    subst hrest
    simp [Server.successResponse, Server.CLASS_NAMES, Server.gradeLabel,
      Server.GRADE_LABELS]
    decide

/-- C1 witness: the theorem applied to a concrete four-entry probability
vector. -/
theorem C1_witness :
    (([1/10, 2/10, 3/10, 4/10] : List ℚ).length = 4) ∧
    ((Server.successResponse "tomato" "v1" [1/10, 2/10, 3/10, 4/10]).grade =
      Server.gradeLabel
        (Server.CLASS_NAMES.getD (Server.argmax [1/10, 2/10, 3/10, 4/10]) "") ∧
     (Server.successResponse "tomato" "v1" [1/10, 2/10, 3/10, 4/10]).grade ∈
      ["Premium", "Grade A", "Grade B", "Reject"] ∧
     (Server.successResponse "tomato" "v1" [1/10, 2/10, 3/10, 4/10]).probabilities.map
        Prod.fst = ["Grade A", "Grade B", "Premium", "Reject"]) :=
  ⟨rfl, C1_predict_grade_and_probability_keys "tomato" "v1" [1/10, 2/10, 3/10, 4/10] rfl⟩

/-- C2 counterexample: ml/server.py registers two routes, /health and
/predict, so the server does not define exactly one HTTP route. -/
theorem C2_counterexample_not_single_route :
    ¬ (Server.app_routes.length = 1) := by decide

/-- C2 amended: the Flask inference server defines exactly two HTTP routes,
GET /health and POST /predict. -/
theorem C2_amended_exactly_two_routes :
    Server.app_routes.length = 2 ∧
    Server.app_routes.map Prod.fst = ["/health", "/predict"] := by decide

/-- C10: /predict returns HTTP 503 when no model is loaded; with a model
loaded it returns HTTP 400 with error No image provided when the request
carries neither a multipart image nor a JSON body with non-empty decoded
image bytes; and the model is invoked only when a model is loaded and
non-empty image bytes are present (whenever the effective image bytes are
missing or empty, the result is independent of the loaded model). -/
theorem C10_predict_guards (mv : String) (req : Server.PredictRequest) :
    (Server.predict none mv req = .error 503 "No model loaded") ∧
    ((req.filesImage = none ∧
        (req.isJson = true → ∀ bs, req.jsonImage = some bs → bs = [])) →
      ∀ f, Server.predict (some f) mv req = .error 400 "No image provided") ∧
    ((Server.effectiveImageBytes req = none ∨
        Server.effectiveImageBytes req = some []) →
      ∀ f g, Server.predict (some f) mv req = Server.predict (some g) mv req) := by
  refine ⟨rfl, ?_, ?_⟩
  · rintro ⟨hfiles, hjson⟩ f
    have hbytes : Server.effectiveImageBytes req = none ∨
        Server.effectiveImageBytes req = some [] := by
      unfold Server.effectiveImageBytes
      rw [hfiles]
      simp only [Option.isSome_none, Bool.false_eq_true, if_false]
      by_cases hj : req.isJson
      · rw [if_pos hj]
        cases hji : req.jsonImage with
        | none => exact Or.inl rfl
        | some bs => exact Or.inr (by rw [hjson hj bs hji])
      · rw [if_neg hj]; exact Or.inl rfl
    rcases hbytes with hb | hb <;>
      simp [Server.predict, hb]
  · intro hbytes f g
    rcases hbytes with hb | hb <;> simp [Server.predict, hb]

/-- C10 witness: the theorem applied to a concrete request carrying a JSON
body whose image field decodes to empty bytes, under no-model and
model-loaded configurations. -/
theorem C10_witness :
    (Server.predict none "v1"
        ⟨none, none, true, some [], none⟩ = .error 503 "No model loaded") ∧
    (Server.predict (some (fun _ => ([] : List ℚ))) "v1"
        ⟨none, none, true, some [], none⟩ = .error 400 "No image provided") ∧
    (Server.predict (some (fun _ => ([1] : List ℚ))) "v1"
        ⟨none, none, true, some [], none⟩ =
      Server.predict (some (fun _ => ([2] : List ℚ))) "v1"
        ⟨none, none, true, some [], none⟩) :=
  ⟨(C10_predict_guards "v1" ⟨none, none, true, some [], none⟩).1,
   (C10_predict_guards "v1" ⟨none, none, true, some [], none⟩).2.1
     ⟨rfl, fun _ bs hbs => by cases hbs; rfl⟩ _,
   (C10_predict_guards "v1" ⟨none, none, true, some [], none⟩).2.2 (Or.inr rfl) _ _⟩

/-- C3 counterexample: on a list of 90 files the code assigns the first
int(90 * 0.7) = 62 files to train (the double product 90 * 0.7 is
62.99999999999999), not floor(0.7 * 90) = 63 as the claim states. -/
theorem C3_counterexample_train_slice_not_floor :
    (PrepareData.split_files (List.replicate 90 "img.jpg")).1.length = 62 ∧
    ¬ ((PrepareData.split_files (List.replicate 90 "img.jpg")).1.length =
        7 * 90 / 10) := by
  constructor
  · decide
  · decide

/-- C3 amended: copy_images_with_split at ratios 0.7 / 0.15 partitions the
shuffled list into three disjoint slices that together cover it; train gets
the first int(n * 0.7) files and val the next int(n * 0.85) - int(n * 0.7),
where int(n * r) is computed in IEEE-754 double arithmetic and can be one
below floor(n * r) (62 instead of 63 at n = 90); whenever the two cut points
are ordered and bounded by n — as they are for these ratios — every file is
assigned to exactly one of train, val and test. -/
theorem C3_amended_split_partition (src : List String)
    (h1 : PrepareData.train_end src.length ≤ PrepareData.val_end src.length)
    (h2 : PrepareData.val_end src.length ≤ src.length) :
    (PrepareData.split_files src).1 ++ (PrepareData.split_files src).2.1 ++
        (PrepareData.split_files src).2.2 = src ∧
    (PrepareData.split_files src).1.length = PrepareData.train_end src.length ∧
    (PrepareData.split_files src).2.1.length =
      PrepareData.val_end src.length - PrepareData.train_end src.length ∧
    (PrepareData.split_files src).2.2.length =
      src.length - PrepareData.val_end src.length := by
  have key : ∀ (a b : ℕ), a ≤ b → b ≤ src.length →
      src.take a ++ (src.drop a).take (b - a) ++ src.drop b = src ∧
      (src.take a).length = a ∧
      ((src.drop a).take (b - a)).length = b - a ∧
      (src.drop b).length = src.length - b := by
    intro a b hab hbn
    refine ⟨?_, ?_, ?_, ?_⟩
    · rw [List.append_assoc]
      have hd : src.drop b = (src.drop a).drop (b - a) := by
        rw [List.drop_drop]
        congr 1
        omega
      rw [hd, List.take_append_drop, List.take_append_drop]
    · rw [List.length_take]
      omega
    · rw [List.length_take, List.length_drop]
      omega
    · rw [List.length_drop]
  exact key (PrepareData.train_end src.length) (PrepareData.val_end src.length) h1 h2

/-- C3 witness: the amended theorem applied to a concrete 10-file list, where
the cut points are int(10 * 0.7) = 7 and int(10 * 0.85) = 8. -/
theorem C3_witness :
    (PrepareData.train_end (List.replicate 10 "a").length ≤
      PrepareData.val_end (List.replicate 10 "a").length) ∧
    (PrepareData.val_end (List.replicate 10 "a").length ≤
      (List.replicate 10 "a").length) ∧
    ((PrepareData.split_files (List.replicate 10 "a")).1 ++
        (PrepareData.split_files (List.replicate 10 "a")).2.1 ++
        (PrepareData.split_files (List.replicate 10 "a")).2.2 =
      List.replicate 10 "a" ∧
     (PrepareData.split_files (List.replicate 10 "a")).1.length =
      PrepareData.train_end (List.replicate 10 "a").length ∧
     (PrepareData.split_files (List.replicate 10 "a")).2.1.length =
      PrepareData.val_end (List.replicate 10 "a").length -
        PrepareData.train_end (List.replicate 10 "a").length ∧
     (PrepareData.split_files (List.replicate 10 "a")).2.2.length =
      (List.replicate 10 "a").length -
        PrepareData.val_end (List.replicate 10 "a").length) :=
  ⟨by decide, by decide,
   C3_amended_split_partition (List.replicate 10 "a") (by decide) (by decide)⟩

lemma ilog2fuel_spec : ∀ (fuel n : ℕ), 1 ≤ n → n ≤ fuel →
    2 ^ PrepareData.ilog2fuel fuel n ≤ n ∧ n < 2 ^ (PrepareData.ilog2fuel fuel n + 1) := by
  intro fuel
  induction fuel with
  | zero =>
      intro n h1 h2
      omega
  | succ f ih =>
      intro n h1 h2
      simp only [PrepareData.ilog2fuel]
      by_cases h : 2 ≤ n
      · rw [if_pos h]
        have hrec := ih (n / 2) (by omega) (by omega)
        rcases hrec with ⟨hl, hr⟩
        rw [pow_succ] at hr
        constructor
        · rw [pow_succ]
          omega
        · rw [pow_succ, pow_succ]
          omega
      · rw [if_neg h]
        constructor
        · simpa using h1
        · have hn2 : n < 2 := by omega
          simpa using hn2

lemma ilog2_spec (n : ℕ) (h : 1 ≤ n) :
    2 ^ PrepareData.ilog2 n ≤ n ∧ n < 2 ^ (PrepareData.ilog2 n + 1) :=
  ilog2fuel_spec n n h (le_refl n)

lemma rneDiv_err (a b : ℕ) (hb : 0 < b) :
    |((Train.rneDiv a b : ℕ) : ℚ) - (a : ℚ) / (b : ℚ)| ≤ 1 / 2 := by
  have hbq : (0 : ℚ) < (b : ℚ) := by exact_mod_cast hb
  have h0 : (b : ℚ) * ((a / b : ℕ) : ℚ) + ((a % b : ℕ) : ℚ) = (a : ℚ) := by
    exact_mod_cast Nat.div_add_mod a b
  have hx : (a : ℚ) / b = ((a / b : ℕ) : ℚ) + ((a % b : ℕ) : ℚ) / b := by
    rw [← h0]
    field_simp
    ring
  have hrlt : a % b < b := Nat.mod_lt a hb
  have hrq : (0 : ℚ) ≤ ((a % b : ℕ) : ℚ) := by positivity
  have hr0 : (0 : ℚ) ≤ ((a % b : ℕ) : ℚ) / b := div_nonneg hrq (le_of_lt hbq)
  have hr1 : ((a % b : ℕ) : ℚ) / b < 1 := by
    rw [div_lt_one hbq]
    exact_mod_cast hrlt
  simp only [Train.rneDiv]
  by_cases h1 : 2 * (a % b) < b
  · rw [if_pos h1, hx]
    have hhalf : ((a % b : ℕ) : ℚ) / b ≤ 1 / 2 := by
      rw [div_le_div_iff hbq (by norm_num : (0 : ℚ) < 2)]
      exact_mod_cast (by omega : (a % b) * 2 ≤ 1 * b)
    rw [abs_le]
    constructor <;> linarith
  · rw [if_neg h1]
    by_cases h2 : b < 2 * (a % b)
    · rw [if_pos h2, hx]
      have hhalf : 1 / 2 ≤ ((a % b : ℕ) : ℚ) / b := by
        rw [div_le_div_iff (by norm_num : (0 : ℚ) < 2) hbq]
        exact_mod_cast (by omega : 1 * b ≤ (a % b) * 2)
      push_cast
      rw [abs_le]
      constructor <;> linarith
    · have htie : ((a % b : ℕ) : ℚ) / b = 1 / 2 := by
        rw [div_eq_div_iff hbq.ne' (by norm_num : (2 : ℚ) ≠ 0)]
        exact_mod_cast (by omega : (a % b) * 2 = 1 * b)
      by_cases h3 : a / b % 2 = 0
      · rw [if_neg h2, if_pos h3, hx, htie]
        rw [abs_le]
        constructor <;> linarith
      · rw [if_neg h2, if_neg h3, hx, htie]
        push_cast
        rw [abs_le]
        constructor <;> linarith

lemma floatDivQ_err (a b : ℕ) (hb : 0 < b) (hlow : b ≤ a * 2 ^ 64)
    (hhigh : a ≤ b * 2 ^ 52) :
    |Train.floatDivQ a b - (a : ℚ) / b| ≤ ((a : ℚ) / b) / 2 ^ 52 := by
  have ha : 0 < a := by
    rcases Nat.eq_zero_or_pos a with h | h
    · subst h
      omega
    · exact h
  simp only [Train.floatDivQ, if_neg (Nat.pos_iff_ne_zero.mp ha)]
  set d := a * 2 ^ 64 / b with hd
  have hd1 : 1 ≤ d := by
    rw [hd, Nat.le_div_iff_mul_le hb]
    omega
  obtain ⟨hdl, hdr⟩ := ilog2_spec d hd1
  set e := PrepareData.ilog2 d with he
  have hdu : d ≤ 2 ^ 116 := by
    rw [hd]
    have hab : a * 2 ^ 64 ≤ b * 2 ^ 116 := by
      calc a * 2 ^ 64 ≤ b * 2 ^ 52 * 2 ^ 64 := Nat.mul_le_mul_right _ hhigh
        _ = b * 2 ^ 116 := by
            rw [mul_assoc, ← pow_add]
    calc a * 2 ^ 64 / b ≤ b * 2 ^ 116 / b := Nat.div_le_div_right hab
      _ = 2 ^ 116 := Nat.mul_div_cancel_left _ hb
  have hele : e ≤ 116 := by
    by_contra hcon
    push_neg at hcon
    have h117 : (2 : ℕ) ^ 117 ≤ 2 ^ e := Nat.pow_le_pow_right (by norm_num) hcon
    have := le_trans h117 hdl
    omega
  have hbq : (0 : ℚ) < (b : ℚ) := by exact_mod_cast hb
  have hxl : ((2 : ℚ) ^ e) / 2 ^ 64 ≤ (a : ℚ) / b := by
    rw [div_le_div_iff (by positivity) hbq]
    have h1 : 2 ^ e * b ≤ a * 2 ^ 64 := by
      calc 2 ^ e * b ≤ a * 2 ^ 64 / b * b := Nat.mul_le_mul_right _ hdl
        _ ≤ a * 2 ^ 64 := Nat.div_mul_le_self _ _
    exact_mod_cast h1
  have herr := rneDiv_err (a * 2 ^ (116 - e)) b hb
  have hm : (0 : ℚ) < (2 : ℚ) ^ (116 - e) := by positivity
  have hkey : |((Train.rneDiv (a * 2 ^ (116 - e)) b : ℕ) : ℚ) / 2 ^ (116 - e) -
      (a : ℚ) / b| ≤ (1 / 2) / 2 ^ (116 - e) := by
    have hsplit : ((Train.rneDiv (a * 2 ^ (116 - e)) b : ℕ) : ℚ) / 2 ^ (116 - e) -
        (a : ℚ) / b =
        (((Train.rneDiv (a * 2 ^ (116 - e)) b : ℕ) : ℚ) -
          ((a * 2 ^ (116 - e) : ℕ) : ℚ) / b) / 2 ^ (116 - e) := by
      push_cast
      field_simp
      ring
    rw [hsplit, abs_div, abs_of_pos hm]
    exact (div_le_div_right hm).mpr herr
  have hfin : (1 / 2 : ℚ) / 2 ^ (116 - e) ≤ ((a : ℚ) / b) / 2 ^ 52 := by
    rw [div_le_div_iff hm (by positivity : (0 : ℚ) < 2 ^ 52)]
    have hsplit2 : (2 : ℚ) ^ (116 - e) * 2 ^ e = 2 ^ 116 := by
      rw [← pow_add]
      congr 1
      omega
    have h2 : ((2 : ℚ) ^ e / 2 ^ 64) * 2 ^ (116 - e) = 2 ^ 52 := by
      rw [div_mul_eq_mul_div, mul_comm ((2 : ℚ) ^ e), hsplit2]
      rw [show (2 : ℚ) ^ 116 = 2 ^ 52 * 2 ^ 64 from by rw [← pow_add]]
      field_simp
    have h3 : ((2 : ℚ) ^ e / 2 ^ 64) * 2 ^ (116 - e) ≤ ((a : ℚ) / b) * 2 ^ (116 - e) :=
      mul_le_mul_of_nonneg_right hxl (le_of_lt hm)
    rw [h2] at h3
    have h4 : (0 : ℚ) ≤ (2 : ℚ) ^ 52 := by positivity
    linarith
  exact le_trans hkey hfin

lemma abs_sum_sub_le {α : Type} (l : List α) (f : α → ℚ) (v ε : ℚ)
    (h : ∀ x ∈ l, |f x - v| ≤ ε) :
    |(l.map f).sum - l.length * v| ≤ l.length * ε := by
  induction l with
  | nil => simp
  | cons x xs ih =>
      have h1 := h x (List.mem_cons_self x xs)
      have h2 := ih (fun y hy => h y (List.mem_cons_of_mem x hy))
      simp only [List.map_cons, List.sum_cons, List.length_cons]
      push_cast
      have hsplit : f x + (xs.map f).sum - ((xs.length : ℚ) + 1) * v =
          (f x - v) + ((xs.map f).sum - xs.length * v) := by
        ring
      rw [hsplit]
      calc |(f x - v) + ((xs.map f).sum - xs.length * v)| ≤
            |f x - v| + |(xs.map f).sum - xs.length * v| := abs_add _ _
        _ ≤ ε + xs.length * ε := add_le_add h1 h2
        _ = ((xs.length : ℚ) + 1) * ε := by ring

lemma snd_le_sum (cc : List (String × ℕ)) {p : String × ℕ} (hp : p ∈ cc) :
    p.2 ≤ (cc.map Prod.snd).sum := by
  induction cc with
  | nil => simp at hp
  | cons q rest ih =>
      simp only [List.map_cons, List.sum_cons]
      rcases List.mem_cons.mp hp with h | h
      · rw [h]
        exact Nat.le_add_right _ _
      · have := ih h
        omega

lemma length_le_sum (cc : List (String × ℕ)) (hpos : ∀ p ∈ cc, 0 < p.2) :
    cc.length ≤ (cc.map Prod.snd).sum := by
  induction cc with
  | nil => simp
  | cons q rest ih =>
      simp only [List.map_cons, List.sum_cons, List.length_cons]
      have h1 := hpos q (List.mem_cons_self q rest)
      have h2 := ih (fun p hp => hpos p (List.mem_cons_of_mem q hp))
      omega

lemma zipWith_map_same {α β γ δ : Type} (f : β → γ → δ) (g : α → β) (h : α → γ)
    (l : List α) :
    List.zipWith f (l.map g) (l.map h) = l.map (fun x => f (g x) (h x)) := by
  induction l with
  | nil => rfl
  | cons x xs ih => simp [ih]

lemma lookup_mem_of_mem_keys {l : List (String × ℕ)} {name : String}
    (h : name ∈ l.map Prod.fst) :
    ∃ c, l.lookup name = some c ∧ (name, c) ∈ l := by
  induction l with
  | nil => simp at h
  | cons p rest ih =>
      rcases p with ⟨k, v⟩
      by_cases hk : name = k
      · subst hk
        exact ⟨v, by simp [List.lookup_cons], by simp⟩
      · have h' : name ∈ rest.map Prod.fst := by
          simpa [hk] using h
        obtain ⟨c, hl, hm⟩ := ih h'
        refine ⟨c, ?_, List.mem_cons_of_mem _ hm⟩
        simpa [List.lookup_cons, beq_false_of_ne hk] using hl

/-- C4 counterexample: at class counts grade_a ↦ 7, premium ↦ 54 the
program's double-precision weights (61/14 and 61/108 rounded to nearest
doubles) have count-weighted sum 274719577269600233/2^52, which is not the
total 61 — Python prints the weighted sum as 60.99999999999999 — so the
claimed exact identity sum(weight_i * count_i) = total fails on the code. -/
theorem C4_counterexample_weighted_sum :
    ¬ ((List.zipWith (fun w c => w * c)
        (Train.compute_class_weights [("grade_a", 7), ("premium", 54)])
        ((Train.sortedNames [("grade_a", 7), ("premium", 54)]).map
          (fun n => ((Train.countOf [("grade_a", 7), ("premium", 54)] n : ℕ) : ℚ)))).sum =
      (((([("grade_a", 7), ("premium", 54)] : List (String × ℕ)).map Prod.snd).sum : ℕ) : ℚ)) := by
  have hsort : Train.sortedNames [("grade_a", 7), ("premium", 54)] =
      ["grade_a", "premium"] := by
    simp [Train.sortedNames, List.insertionSort, List.orderedInsert]
    decide
  have hc1 : Train.countOf [("grade_a", 7), ("premium", 54)] "grade_a" = 7 := by decide
  have hc2 : Train.countOf [("grade_a", 7), ("premium", 54)] "premium" = 54 := by decide
  have hi1 : PrepareData.ilog2 (61 * 2 ^ 64 / 14) = 66 := by decide
  have hi2 : PrepareData.ilog2 (61 * 2 ^ 64 / 108) = 63 := by decide
  have hk1 : Train.rneDiv 68679894317400064 14 = 4905706736957147 := by decide
  have hk2 : Train.rneDiv 549439154539200512 108 = 5087399579066671 := by decide
  have he1 : Train.floatDivQ 61 14 = (4905706736957147 : ℚ) / 2 ^ 50 := by
    simp only [Train.floatDivQ, hi1]
    rw [if_neg (by norm_num : ¬ (61 : ℕ) = 0)]
    norm_num [hk1]
  have he2 : Train.floatDivQ 61 108 = (5087399579066671 : ℚ) / 2 ^ 53 := by
    simp only [Train.floatDivQ, hi2]
    rw [if_neg (by norm_num : ¬ (61 : ℕ) = 0)]
    norm_num [hk2]
  simp only [Train.compute_class_weights, hsort, List.map_cons, List.map_nil,
    List.sum_cons, List.sum_nil, List.length_cons, List.length_nil, hc1, hc2]
  norm_num [he1, he2]

/-- C4 corrected: compute_class_weights assigns to the class at alphabetical
index i the IEEE-754 double nearest total / (num_classes * count_i), so the
weighted sum of the class weights by class counts equals the total only up
to double rounding: it lies within total / 2^52 of the total. -/
theorem C4_float_class_weights (cc : List (String × ℕ))
    (hnd : (cc.map Prod.fst).Nodup)
    (hpos : ∀ p ∈ cc, 0 < p.2)
    (htot : (cc.map Prod.snd).sum ≤ 2 ^ 52) :
    (∀ i, i < (Train.compute_class_weights cc).length →
      (Train.compute_class_weights cc).getD i 0 =
        Train.floatDivQ ((cc.map Prod.snd).sum)
          (cc.length * Train.countOf cc ((Train.sortedNames cc).getD i ""))) ∧
    |(List.zipWith (fun w c => w * c) (Train.compute_class_weights cc)
        ((Train.sortedNames cc).map (fun n => ((Train.countOf cc n : ℕ) : ℚ)))).sum -
      (((cc.map Prod.snd).sum : ℕ) : ℚ)| ≤
      (((cc.map Prod.snd).sum : ℕ) : ℚ) / 2 ^ 52 := by
  constructor
  · intro i hi
    have hi' : i < (Train.sortedNames cc).length := by
      simpa [Train.compute_class_weights] using hi
    simp only [Train.compute_class_weights]
    rw [List.getD_eq_getElem?_getD, List.getElem?_map, List.getElem?_eq_getElem hi']
    rw [List.getD_eq_getElem?_getD, List.getElem?_eq_getElem hi']
    rfl
  · simp only [Train.compute_class_weights]
    rw [zipWith_map_same]
    by_cases hcc : cc = []
    · subst hcc
      simp [Train.sortedNames]
    · have hk0 : 0 < cc.length := List.length_pos.mpr hcc
      have htot1 : 0 < (cc.map Prod.snd).sum :=
        lt_of_lt_of_le hk0 (length_le_sum cc hpos)
      have hkq : (0 : ℚ) < (cc.length : ℚ) := by exact_mod_cast hk0
      have hterm : ∀ n ∈ Train.sortedNames cc,
          |Train.floatDivQ ((cc.map Prod.snd).sum)
              (cc.length * Train.countOf cc n) * ((Train.countOf cc n : ℕ) : ℚ) -
            (((cc.map Prod.snd).sum : ℕ) : ℚ) / (cc.length : ℚ)| ≤
            ((((cc.map Prod.snd).sum : ℕ) : ℚ) / (cc.length : ℚ)) / 2 ^ 52 := by
        intro n hn
        have hn' : n ∈ cc.map Prod.fst := by
          simpa [Train.sortedNames, List.mem_insertionSort] using hn
        obtain ⟨c, hl, hm⟩ := lookup_mem_of_mem_keys hn'
        have hco : Train.countOf cc n = c := by
          simp [Train.countOf, hl]
        have hc0 : 0 < c := hpos _ hm
        have hcT : c ≤ (cc.map Prod.snd).sum := snd_le_sum cc hm
        have hkT : cc.length ≤ (cc.map Prod.snd).sum := length_le_sum cc hpos
        have hb : 0 < cc.length * c := Nat.mul_pos hk0 hc0
        have hlow : cc.length * c ≤ (cc.map Prod.snd).sum * 2 ^ 64 := by
          have h1 : cc.length * c ≤ (cc.map Prod.snd).sum * (cc.map Prod.snd).sum :=
            Nat.mul_le_mul hkT hcT
          have h2 : (cc.map Prod.snd).sum * (cc.map Prod.snd).sum ≤
              (cc.map Prod.snd).sum * 2 ^ 52 :=
            Nat.mul_le_mul_left _ htot
          have h3 : (cc.map Prod.snd).sum * 2 ^ 52 ≤ (cc.map Prod.snd).sum * 2 ^ 64 :=
            Nat.mul_le_mul_left _ (by norm_num)
          exact le_trans h1 (le_trans h2 h3)
        have hhigh : (cc.map Prod.snd).sum ≤ cc.length * c * 2 ^ 52 := by
          calc (cc.map Prod.snd).sum ≤ 2 ^ 52 := htot
            _ = 1 * 2 ^ 52 := (one_mul _).symm
            _ ≤ cc.length * c * 2 ^ 52 := Nat.mul_le_mul_right _ hb
        have herr := floatDivQ_err ((cc.map Prod.snd).sum) (cc.length * c) hb hlow hhigh
        have hcq : (0 : ℚ) < ((c : ℕ) : ℚ) := by exact_mod_cast hc0
        have hbq : ((cc.length * c : ℕ) : ℚ) = (cc.length : ℚ) * ((c : ℕ) : ℚ) := by
          push_cast
          ring
        rw [hco]
        have hid1 : (((cc.map Prod.snd).sum : ℕ) : ℚ) / ((cc.length * c : ℕ) : ℚ) *
            ((c : ℕ) : ℚ) = (((cc.map Prod.snd).sum : ℕ) : ℚ) / (cc.length : ℚ) := by
          rw [hbq]
          field_simp
          ring
        have hfact : Train.floatDivQ ((cc.map Prod.snd).sum) (cc.length * c) *
            ((c : ℕ) : ℚ) -
            (((cc.map Prod.snd).sum : ℕ) : ℚ) / (cc.length : ℚ) =
            (Train.floatDivQ ((cc.map Prod.snd).sum) (cc.length * c) -
              (((cc.map Prod.snd).sum : ℕ) : ℚ) / ((cc.length * c : ℕ) : ℚ)) *
              ((c : ℕ) : ℚ) := by
          rw [← hid1]
          ring
        rw [hfact, abs_mul, abs_of_pos hcq]
        have hmul := mul_le_mul_of_nonneg_right herr (le_of_lt hcq)
        have hid2 : ((((cc.map Prod.snd).sum : ℕ) : ℚ) / ((cc.length * c : ℕ) : ℚ)) /
            2 ^ 52 * ((c : ℕ) : ℚ) =
            ((((cc.map Prod.snd).sum : ℕ) : ℚ) / (cc.length : ℚ)) / 2 ^ 52 := by
          calc ((((cc.map Prod.snd).sum : ℕ) : ℚ) / ((cc.length * c : ℕ) : ℚ)) /
              2 ^ 52 * ((c : ℕ) : ℚ) =
              ((((cc.map Prod.snd).sum : ℕ) : ℚ) / ((cc.length * c : ℕ) : ℚ) *
                ((c : ℕ) : ℚ)) / 2 ^ 52 := by ring
            _ = ((((cc.map Prod.snd).sum : ℕ) : ℚ) / (cc.length : ℚ)) / 2 ^ 52 := by
                rw [hid1]
        rw [hid2] at hmul
        exact hmul
      have hsum := abs_sum_sub_le (Train.sortedNames cc)
        (fun n => Train.floatDivQ ((cc.map Prod.snd).sum)
          (cc.length * Train.countOf cc n) * ((Train.countOf cc n : ℕ) : ℚ))
        ((((cc.map Prod.snd).sum : ℕ) : ℚ) / (cc.length : ℚ))
        (((((cc.map Prod.snd).sum : ℕ) : ℚ) / (cc.length : ℚ)) / 2 ^ 52) hterm
      have hlen : (Train.sortedNames cc).length = cc.length := by
        simp [Train.sortedNames, List.length_insertionSort]
      rw [hlen] at hsum
      have hc1 : (cc.length : ℚ) * ((((cc.map Prod.snd).sum : ℕ) : ℚ) / (cc.length : ℚ)) =
          (((cc.map Prod.snd).sum : ℕ) : ℚ) := by
        field_simp
      have hc2 : (cc.length : ℚ) *
          (((((cc.map Prod.snd).sum : ℕ) : ℚ) / (cc.length : ℚ)) / 2 ^ 52) =
          (((cc.map Prod.snd).sum : ℕ) : ℚ) / 2 ^ 52 := by
        calc (cc.length : ℚ) *
            (((((cc.map Prod.snd).sum : ℕ) : ℚ) / (cc.length : ℚ)) / 2 ^ 52) =
            ((cc.length : ℚ) *
              ((((cc.map Prod.snd).sum : ℕ) : ℚ) / (cc.length : ℚ))) / 2 ^ 52 := by
              ring
          _ = (((cc.map Prod.snd).sum : ℕ) : ℚ) / 2 ^ 52 := by rw [hc1]
      rw [hc1, hc2] at hsum
      exact hsum

/-- C4 witness: the amended theorem applied to the concrete class-count map
grade_a ↦ 2, premium ↦ 6. -/
theorem C4_witness :
    ((([("grade_a", 2), ("premium", 6)] : List (String × ℕ)).map Prod.fst).Nodup) ∧
    (∀ p ∈ ([("grade_a", 2), ("premium", 6)] : List (String × ℕ)), 0 < p.2) ∧
    ((([("grade_a", 2), ("premium", 6)] : List (String × ℕ)).map Prod.snd).sum ≤ 2 ^ 52) ∧
    ((∀ i, i < (Train.compute_class_weights [("grade_a", 2), ("premium", 6)]).length →
      (Train.compute_class_weights [("grade_a", 2), ("premium", 6)]).getD i 0 =
        Train.floatDivQ
          ((([("grade_a", 2), ("premium", 6)] : List (String × ℕ)).map Prod.snd).sum)
          (([("grade_a", 2), ("premium", 6)] : List (String × ℕ)).length *
            Train.countOf [("grade_a", 2), ("premium", 6)]
              ((Train.sortedNames [("grade_a", 2), ("premium", 6)]).getD i ""))) ∧
    |(List.zipWith (fun w c => w * c)
        (Train.compute_class_weights [("grade_a", 2), ("premium", 6)])
        ((Train.sortedNames [("grade_a", 2), ("premium", 6)]).map
          (fun n => ((Train.countOf [("grade_a", 2), ("premium", 6)] n : ℕ) : ℚ)))).sum -
      (((([("grade_a", 2), ("premium", 6)] : List (String × ℕ)).map Prod.snd).sum : ℕ) : ℚ)| ≤
      (((([("grade_a", 2), ("premium", 6)] : List (String × ℕ)).map Prod.snd).sum : ℕ) : ℚ) /
        2 ^ 52) :=
  ⟨by decide, by decide, by decide,
   C4_float_class_weights [("grade_a", 2), ("premium", 6)] (by decide) (by decide)
     (by decide)⟩


lemma le_pymax_foldl (l : List ℚ) :
    ∀ (s x : ℚ), x ∈ l ∨ x = s →
      x ≤ l.foldl (fun a b => if a < b then b else a) s := by
  induction l with
  | nil =>
      intro s x hx
      rcases hx with h | h
      · simp at h
      · simp [h]
  | cons y t ih =>
      intro s x hx
      simp only [List.foldl_cons]
      have hy : y ≤ if s < y then y else s := by
        split
        · exact le_refl y
        · exact le_of_not_lt (by assumption)
      have hs : s ≤ if s < y then y else s := by
        split
        · exact le_of_lt (by assumption)
        · exact le_refl s
      have hseed : (if s < y then y else s) ≤
          t.foldl (fun a b => if a < b then b else a) (if s < y then y else s) :=
        ih _ _ (Or.inr rfl)
      rcases hx with h | h
      · rcases List.mem_cons.mp h with h1 | h1
        · rw [h1]
          exact le_trans hy hseed
        · exact ih _ x (Or.inl h1)
      · rw [h]
        exact le_trans hs hseed

lemma pymax_le_foldl (l : List ℚ) (c : ℚ) :
    ∀ s, s ≤ c → (∀ x ∈ l, x ≤ c) →
      l.foldl (fun a b => if a < b then b else a) s ≤ c := by
  induction l with
  | nil =>
      intro s hs _
      simpa using hs
  | cons y t ih =>
      intro s hs hall
      simp only [List.foldl_cons]
      apply ih
      · split
        · exact hall y (List.mem_cons_self y t)
        · exact hs
      · intro x hx
        exact hall x (List.mem_cons_of_mem y hx)

lemma le_pymax {l : List ℚ} {x : ℚ} (hx : x ∈ l) : x ≤ BiasTest.pymax l :=
  le_pymax_foldl l (l.headD 0) x (Or.inl hx)

lemma pymax_le {l : List ℚ} {c : ℚ} (hne : l ≠ []) (h : ∀ x ∈ l, x ≤ c) :
    BiasTest.pymax l ≤ c := by
  apply pymax_le_foldl
  · cases l with
    | nil => exact absurd rfl hne
    | cons y t => exact h y (List.mem_cons_self y t)
  · exact h

lemma pymin_foldl_le (l : List ℚ) :
    ∀ (s x : ℚ), x ∈ l ∨ x = s →
      l.foldl (fun a b => if b < a then b else a) s ≤ x := by
  induction l with
  | nil =>
      intro s x hx
      rcases hx with h | h
      · simp at h
      · simp [h]
  | cons y t ih =>
      intro s x hx
      simp only [List.foldl_cons]
      have hy : (if y < s then y else s) ≤ y := by
        split
        · exact le_refl y
        · exact le_of_not_lt (by assumption)
      have hs : (if y < s then y else s) ≤ s := by
        split
        · exact le_of_lt (by assumption)
        · exact le_refl s
      have hseed : t.foldl (fun a b => if b < a then b else a) (if y < s then y else s) ≤
          (if y < s then y else s) :=
        ih _ _ (Or.inr rfl)
      rcases hx with h | h
      · rcases List.mem_cons.mp h with h1 | h1
        · rw [h1]
          exact le_trans hseed hy
        · exact ih _ x (Or.inl h1)
      · rw [h]
        exact le_trans hseed hs

lemma le_pymin_foldl (l : List ℚ) (c : ℚ) :
    ∀ s, c ≤ s → (∀ x ∈ l, c ≤ x) →
      c ≤ l.foldl (fun a b => if b < a then b else a) s := by
  induction l with
  | nil =>
      intro s hs _
      simpa using hs
  | cons y t ih =>
      intro s hs hall
      simp only [List.foldl_cons]
      apply ih
      · split
        · exact hall y (List.mem_cons_self y t)
        · exact hs
      · intro x hx
        exact hall x (List.mem_cons_of_mem y hx)

lemma le_pymin {l : List ℚ} {c : ℚ} (hne : l ≠ []) (h : ∀ x ∈ l, c ≤ x) :
    c ≤ BiasTest.pymin l := by
  apply le_pymin_foldl
  · cases l with
    | nil => exact absurd rfl hne
    | cons y t => exact h y (List.mem_cons_self y t)
  · exact h

lemma eq_of_mem_of_fst_eq {α β : Type} {l : List (α × β)}
    (h : (l.map Prod.fst).Nodup) {p q : α × β}
    (hp : p ∈ l) (hq : q ∈ l) (hfst : p.1 = q.1) : p = q := by
  induction l with
  | nil => simp at hp
  | cons a t ih =>
      rw [List.map_cons, List.nodup_cons] at h
      rcases List.mem_cons.mp hp with h1 | h1 <;> rcases List.mem_cons.mp hq with h2 | h2
      · rw [h1, h2]
      · exfalso
        apply h.1
        have : q.1 ∈ t.map Prod.fst := List.mem_map_of_mem Prod.fst h2
        rw [← hfst, h1] at this
        exact this
      · exfalso
        apply h.1
        have : p.1 ∈ t.map Prod.fst := List.mem_map_of_mem Prod.fst h1
        rw [hfst, h2] at this
        exact this
      · exact ih h.2 h1 h2

/-- C5: in test_reject_rate_parity, a crop (among those with rates computed)
is reported as a 4/5ths-rule violation if and only if its acceptance rate,
1 minus its reject rate, divided by the maximum acceptance rate over all
crops, is strictly below the disparate-impact threshold 0.8. -/
theorem C5_four_fifths_rule_violations (rates : List (String × ℚ))
    (hnd : (rates.map Prod.fst).Nodup)
    (hb : ∀ p ∈ rates, 0 ≤ p.2 ∧ p.2 ≤ 1)
    (hacc : 0 < BiasTest.max_acceptance rates) :
    ∀ p ∈ rates,
      (p.1 ∈ BiasTest.di_violations rates ↔
        (1 - p.2) / BiasTest.max_acceptance rates <
          BiasTest.DISPARATE_IMPACT_THRESHOLD) := by
  intro p hp
  have hne : rates ≠ [] := by
    intro h
    rw [h] at hp
    simp at hp
  simp only [BiasTest.di_violations]
  by_cases hmax : 0 < BiasTest.pymax (rates.map Prod.snd)
  · have hmin : 0 ≤ BiasTest.pymin (rates.map Prod.snd) := by
      apply le_pymin (by simpa [List.map_eq_nil_iff] using hne)
      intro x hx
      obtain ⟨q, hq, rfl⟩ := List.mem_map.mp hx
      exact (hb q hq).1
    rw [if_pos ⟨hmax, hmin⟩]
    constructor
    · intro hmem
      obtain ⟨ca, hca, hfst⟩ := List.mem_map.mp hmem
      have hca2 := List.mem_filter.mp hca
      obtain ⟨q, hq, hqe⟩ := List.mem_map.mp hca2.1
      have hcond := of_decide_eq_true hca2.2
      have hqp : q = p := by
        apply eq_of_mem_of_fst_eq hnd hq hp
        rw [← hqe] at hfst
        exact hfst
      have hca2eq : ca.2 = 1 - p.2 := by
        rw [← hqe, hqp]
      rw [← hca2eq]
      exact hcond.2
    · intro hlt
      apply List.mem_map.mpr
      refine ⟨(p.1, 1 - p.2), ?_, rfl⟩
      apply List.mem_filter.mpr
      exact ⟨List.mem_map.mpr ⟨p, hp, rfl⟩, decide_eq_true ⟨hacc, hlt⟩⟩
  · rw [if_neg (fun hcontra => hmax hcontra.1)]
    simp only [List.not_mem_nil, false_iff, not_lt]
    have hp2 : p.2 = 0 := by
      have h1 : p.2 ≤ BiasTest.pymax (rates.map Prod.snd) :=
        le_pymax (List.mem_map_of_mem Prod.snd hp)
      have h2 := not_lt.mp hmax
      exact le_antisymm (le_trans h1 h2) (hb p hp).1
    have hacc_le : BiasTest.max_acceptance rates ≤ 1 := by
      apply pymax_le (by simp [BiasTest.acceptance_rates, List.map_eq_nil_iff, hne])
      intro x hx
      simp only [BiasTest.acceptance_rates, List.map_map] at hx
      obtain ⟨q, hq, rfl⟩ := List.mem_map.mp hx
      have := (hb q hq).1
      simp only [Function.comp]
      linarith
    rw [hp2, BiasTest.DISPARATE_IMPACT_THRESHOLD, sub_zero]
    rw [le_div_iff₀ hacc]
    exact mul_le_one₀ (by norm_num) (le_of_lt hacc) hacc_le

/-- C5 witness: the theorem applied to concrete reject rates tomato ↦ 0 and
mango ↦ 1/2, where the mango acceptance ratio 1/2 falls below 0.8. -/
theorem C5_witness :
    ((([("tomato", (0 : ℚ)), ("mango", 1/2)] : List (String × ℚ)).map Prod.fst).Nodup) ∧
    (∀ p ∈ ([("tomato", (0 : ℚ)), ("mango", 1/2)] : List (String × ℚ)),
      0 ≤ p.2 ∧ p.2 ≤ 1) ∧
    (0 < BiasTest.max_acceptance [("tomato", (0 : ℚ)), ("mango", 1/2)]) ∧
    (∀ p ∈ ([("tomato", (0 : ℚ)), ("mango", 1/2)] : List (String × ℚ)),
      (p.1 ∈ BiasTest.di_violations [("tomato", (0 : ℚ)), ("mango", 1/2)] ↔
        (1 - p.2) / BiasTest.max_acceptance [("tomato", (0 : ℚ)), ("mango", 1/2)] <
          BiasTest.DISPARATE_IMPACT_THRESHOLD)) :=
  ⟨by decide,
   by
     intro p hp
     fin_cases hp <;> norm_num,
   by
     norm_num [BiasTest.max_acceptance, BiasTest.acceptance_rates, BiasTest.pymax],
   C5_four_fifths_rule_violations [("tomato", (0 : ℚ)), ("mango", 1/2)]
     (by decide)
     (by intro p hp; fin_cases hp <;> norm_num)
     (by norm_num [BiasTest.max_acceptance, BiasTest.acceptance_rates, BiasTest.pymax])⟩

lemma length_filter_cons {α : Type} (f : α → Bool) (a : α) (l : List α) :
    (List.filter f (a :: l)).length = (if f a then 1 else 0) + (List.filter f l).length := by
  by_cases h : f a <;> simp [List.filter_cons, h, Nat.add_comm]

lemma cm_foldl_char (samples : List (ℕ × ℕ)) :
    ∀ (acc : ℕ → ℕ → ℕ) (t p : ℕ),
      (samples.foldl (fun cm s => Evaluate.cmStep cm s.1 s.2) acc) t p =
        acc t p + (samples.filter (fun s => decide (s.1 = t ∧ s.2 = p))).length := by
  induction samples with
  | nil =>
      intro acc t p
      simp
  | cons s rest ih =>
      intro acc t p
      simp only [List.foldl_cons]
      rw [ih, length_filter_cons]
      by_cases h1 : t = s.1 ∧ p = s.2
      · have h2 : s.1 = t ∧ s.2 = p := ⟨h1.1.symm, h1.2.symm⟩
        simp only [Evaluate.cmStep, if_pos h1, decide_eq_true h2]
        simp
        omega
      · have h2 : ¬(s.1 = t ∧ s.2 = p) := fun hc => h1 ⟨hc.1.symm, hc.2.symm⟩
        simp only [Evaluate.cmStep, if_neg h1, decide_eq_false h2]
        simp

lemma row_sum_filter_eq (k : ℕ) (samples : List (ℕ × ℕ))
    (hk : ∀ s ∈ samples, s.2 < k) (t : ℕ) :
    (∑ p ∈ Finset.range k,
        (samples.filter (fun s => decide (s.1 = t ∧ s.2 = p))).length) =
      (samples.filter (fun s => decide (s.1 = t))).length := by
  induction samples with
  | nil => simp
  | cons s rest ih =>
      have hs : s.2 < k := hk s (List.mem_cons_self s rest)
      have ih' := ih (fun x hx => hk x (List.mem_cons_of_mem s hx))
      by_cases ht : s.1 = t
      · have hR : (List.filter (fun x => decide (x.1 = t)) (s :: rest)).length =
            1 + (List.filter (fun x => decide (x.1 = t)) rest).length := by
          rw [length_filter_cons]
          simp [ht]
        have hL : ∀ p : ℕ,
            (List.filter (fun x => decide (x.1 = t ∧ x.2 = p)) (s :: rest)).length =
              (if s.2 = p then 1 else 0) +
                (List.filter (fun x => decide (x.1 = t ∧ x.2 = p)) rest).length := by
          intro p
          rw [length_filter_cons]
          by_cases hp : s.2 = p <;> simp [ht, hp]
        rw [Finset.sum_congr rfl (fun p _ => hL p), Finset.sum_add_distrib, ih', hR,
          Finset.sum_ite_eq (Finset.range k) s.2 (fun _ => 1),
          if_pos (Finset.mem_range.mpr hs)]
      · have hR : (List.filter (fun x => decide (x.1 = t)) (s :: rest)).length =
            (List.filter (fun x => decide (x.1 = t)) rest).length := by
          rw [length_filter_cons]
          simp [ht]
        have hL : ∀ p : ℕ,
            (List.filter (fun x => decide (x.1 = t ∧ x.2 = p)) (s :: rest)).length =
              (List.filter (fun x => decide (x.1 = t ∧ x.2 = p)) rest).length := by
          intro p
          rw [length_filter_cons]
          simp [ht]
        rw [Finset.sum_congr rfl (fun p _ => hL p), ih', hR]

lemma total_sum_filter_eq (k : ℕ) (samples : List (ℕ × ℕ))
    (hk : ∀ s ∈ samples, s.1 < k) :
    (∑ t ∈ Finset.range k,
        (samples.filter (fun s => decide (s.1 = t))).length) = samples.length := by
  induction samples with
  | nil => simp
  | cons s rest ih =>
      have hs : s.1 < k := hk s (List.mem_cons_self s rest)
      have ih' := ih (fun x hx => hk x (List.mem_cons_of_mem s hx))
      have hsplit : ∀ t : ℕ,
          (List.filter (fun x => decide (x.1 = t)) (s :: rest)).length =
            (if s.1 = t then 1 else 0) +
              (List.filter (fun x => decide (x.1 = t)) rest).length := by
        intro t
        rw [length_filter_cons]
        by_cases h : s.1 = t <;> simp [h]
      rw [Finset.sum_congr rfl (fun t _ => hsplit t), Finset.sum_add_distrib, ih',
        Finset.sum_ite_eq (Finset.range k) s.1 (fun _ => 1),
        if_pos (Finset.mem_range.mpr hs)]
      simp [Nat.add_comm]

/-- C6: the fallback confusion matrix (the branch taken when sklearn is
absent) counts at entry (t, p) exactly the samples with true class t and
predicted class p; all entries sum to the number of samples, and row t sums
to the number of samples of true class t. -/
theorem C6_confusion_matrix_counts (k : ℕ) (samples : List (ℕ × ℕ))
    (hk : ∀ s ∈ samples, s.1 < k ∧ s.2 < k) :
    (∀ t p, Evaluate.compute_confusion_matrix samples t p =
        (samples.filter (fun s => decide (s.1 = t ∧ s.2 = p))).length) ∧
    (∑ t ∈ Finset.range k, ∑ p ∈ Finset.range k,
        Evaluate.compute_confusion_matrix samples t p) = samples.length ∧
    (∀ t, (∑ p ∈ Finset.range k, Evaluate.compute_confusion_matrix samples t p) =
        (samples.filter (fun s => decide (s.1 = t))).length) := by
  have hchar : ∀ t p, Evaluate.compute_confusion_matrix samples t p =
      (samples.filter (fun s => decide (s.1 = t ∧ s.2 = p))).length := by
    intro t p
    have := cm_foldl_char samples (fun _ _ => 0) t p
    simpa [Evaluate.compute_confusion_matrix] using this
  have h2 : ∀ t, (∑ p ∈ Finset.range k, Evaluate.compute_confusion_matrix samples t p) =
      (samples.filter (fun s => decide (s.1 = t))).length := by
    intro t
    rw [Finset.sum_congr rfl (fun p _ => hchar t p),
      row_sum_filter_eq k samples (fun s hs => (hk s hs).2) t]
  refine ⟨hchar, ?_, h2⟩
  rw [Finset.sum_congr rfl (fun t _ => h2 t),
    total_sum_filter_eq k samples (fun s hs => (hk s hs).1)]

/-- C6 witness: the theorem applied to three concrete samples over two
classes. -/
theorem C6_witness :
    (∀ s ∈ ([(0, 1), (1, 1), (0, 0)] : List (ℕ × ℕ)), s.1 < 2 ∧ s.2 < 2) ∧
    ((∀ t p, Evaluate.compute_confusion_matrix [(0, 1), (1, 1), (0, 0)] t p =
        (([(0, 1), (1, 1), (0, 0)] : List (ℕ × ℕ)).filter
          (fun s => decide (s.1 = t ∧ s.2 = p))).length) ∧
     (∑ t ∈ Finset.range 2, ∑ p ∈ Finset.range 2,
        Evaluate.compute_confusion_matrix [(0, 1), (1, 1), (0, 0)] t p) =
      ([(0, 1), (1, 1), (0, 0)] : List (ℕ × ℕ)).length ∧
     (∀ t, (∑ p ∈ Finset.range 2,
        Evaluate.compute_confusion_matrix [(0, 1), (1, 1), (0, 0)] t p) =
        (([(0, 1), (1, 1), (0, 0)] : List (ℕ × ℕ)).filter
          (fun s => decide (s.1 = t))).length)) :=
  ⟨by decide, C6_confusion_matrix_counts 2 [(0, 1), (1, 1), (0, 0)] (by decide)⟩

lemma range_sum_ite_eq_filter (P : ℕ × ℕ → Prop) [DecidablePred P] :
    ∀ (tc pc : List ℕ), pc.length = tc.length →
      ((List.range tc.length).map (fun i =>
          if P (tc.getD i 0, pc.getD i 0) then 1 else 0)).sum =
        ((tc.zip pc).filter (fun s => decide (P s))).length := by
  intro tc
  induction tc with
  | nil =>
      intro pc h
      simp
  | cons t tc ih =>
      intro pc h
      cases pc with
      | nil => simp at h
      | cons q pc =>
          have h' : pc.length = tc.length := by simpa using h
          simp only [List.length_cons, List.range_succ_eq_map, List.map_cons,
            List.map_map, List.sum_cons, List.getD_cons_zero]
          have htail : (List.range tc.length).map
              ((fun i => if P ((t :: tc).getD i 0, (q :: pc).getD i 0) then 1 else 0) ∘
                Nat.succ) =
              (List.range tc.length).map
                (fun i => if P (tc.getD i 0, pc.getD i 0) then 1 else 0) := by
            apply List.map_congr_left
            intro i _
            simp [Function.comp, List.getD_cons_succ]
          rw [htail, ih pc h', List.zip_cons_cons, length_filter_cons]
          by_cases hP : P (t, q) <;> simp [hP]

/-- C7: in test_false_positive_rate_parity each grade FPR equals
fp / (fp + tn) when fp + tn > 0 and 0 otherwise, with fp counting samples
predicted as the grade whose true class differs and tn counting samples
neither predicted nor truly of the grade; and a bias-concern flag is emitted
if and only if the max-min FPR gap strictly exceeds the threshold 0.10. -/
theorem C7_fpr_parity (tc pc : List ℕ) (cn : List String)
    (hlen : pc.length = tc.length) :
    (BiasTest.grade_fpr tc pc cn =
      cn.enum.map (fun gi =>
        (gi.2,
          if 0 < ((tc.zip pc).filter
                (fun s => decide (s.2 = gi.1 ∧ s.1 ≠ gi.1))).length +
              ((tc.zip pc).filter
                (fun s => decide (s.2 ≠ gi.1 ∧ s.1 ≠ gi.1))).length then
            ((((tc.zip pc).filter
                (fun s => decide (s.2 = gi.1 ∧ s.1 ≠ gi.1))).length : ℚ)) /
              (((((tc.zip pc).filter
                  (fun s => decide (s.2 = gi.1 ∧ s.1 ≠ gi.1))).length : ℚ)) +
                ((((tc.zip pc).filter
                  (fun s => decide (s.2 ≠ gi.1 ∧ s.1 ≠ gi.1))).length : ℚ)))
          else 0))) ∧
    (BiasTest.fpr_flags tc pc cn ≠ [] ↔
      BiasTest.FPR_GAP_THRESHOLD < BiasTest.fpr_gap tc pc cn) := by
  constructor
  · unfold BiasTest.grade_fpr
    apply List.map_congr_left
    intro gi _
    have hfp : BiasTest.fp_count tc pc gi.1 =
        ((tc.zip pc).filter (fun s => decide (s.2 = gi.1 ∧ s.1 ≠ gi.1))).length := by
      have := range_sum_ite_eq_filter (fun s => s.2 = gi.1 ∧ s.1 ≠ gi.1) tc pc hlen
      simpa [BiasTest.fp_count] using this
    have htn : BiasTest.tn_count tc pc gi.1 =
        ((tc.zip pc).filter (fun s => decide (s.2 ≠ gi.1 ∧ s.1 ≠ gi.1))).length := by
      have := range_sum_ite_eq_filter (fun s => s.2 ≠ gi.1 ∧ s.1 ≠ gi.1) tc pc hlen
      simpa [BiasTest.tn_count] using this
    simp only [BiasTest.fpr, hfp, htn]
  · unfold BiasTest.fpr_flags
    by_cases hgap : BiasTest.FPR_GAP_THRESHOLD < BiasTest.fpr_gap tc pc cn
    · simp [hgap]
    · simp [hgap]

/-- C7 witness: the theorem applied to concrete classes [0, 1] with
predictions [1, 1] over two grade names. -/
theorem C7_witness :
    (([1, 1] : List ℕ).length = ([0, 1] : List ℕ).length) ∧
    ((BiasTest.grade_fpr [0, 1] [1, 1] ["grade_a", "grade_b"] =
      (["grade_a", "grade_b"] : List String).enum.map (fun gi =>
        (gi.2,
          if 0 < ((([0, 1] : List ℕ).zip [1, 1]).filter
                (fun s => decide (s.2 = gi.1 ∧ s.1 ≠ gi.1))).length +
              ((([0, 1] : List ℕ).zip [1, 1]).filter
                (fun s => decide (s.2 ≠ gi.1 ∧ s.1 ≠ gi.1))).length then
            ((((([0, 1] : List ℕ).zip [1, 1]).filter
                (fun s => decide (s.2 = gi.1 ∧ s.1 ≠ gi.1))).length : ℚ)) /
              (((((([0, 1] : List ℕ).zip [1, 1]).filter
                  (fun s => decide (s.2 = gi.1 ∧ s.1 ≠ gi.1))).length : ℚ)) +
                ((((([0, 1] : List ℕ).zip [1, 1]).filter
                  (fun s => decide (s.2 ≠ gi.1 ∧ s.1 ≠ gi.1))).length : ℚ)))
          else 0))) ∧
     (BiasTest.fpr_flags [0, 1] [1, 1] ["grade_a", "grade_b"] ≠ [] ↔
      BiasTest.FPR_GAP_THRESHOLD <
        BiasTest.fpr_gap [0, 1] [1, 1] ["grade_a", "grade_b"])) :=
  ⟨rfl, C7_fpr_parity [0, 1] [1, 1] ["grade_a", "grade_b"] rfl⟩

end SunHarvest
